import Mathlib

/-!
Verification of the schema sanitizer `sanitizeParametersForGemini`
(`src/utils/sanitize.ts`).

The sanitizer walks a JSON-Schema-like graph of nodes in place, guarded by an
identity-keyed visited set.  We embed it shallowly: node identities become
natural-number ids into a heap (`Graph := List SchemaNode`), the in-place
mutation becomes explicit state passing, and the unbounded recursion of the
source becomes a fuel-indexed recursion.  The public entry point supplies
enough fuel (`g.length + 1`) for any input, and we prove that this fuel is
always sufficient and that the result is fuel-independent beyond it.
-/

set_option maxHeartbeats 1000000

/-- The `Type` enum of the `@google/genai` client (named `GenaiType` here
because `Type` is reserved in Lean). -/
inductive GenaiType where
  | TYPE_UNSPECIFIED
  | STRING
  | NUMBER
  | INTEGER
  | BOOLEAN
  | ARRAY
  | OBJECT
  | NULL
deriving DecidableEq, Repr

/-- A schema slot: either a literal boolean schema (JSON-Schema's `true`/`false`
convention) or a reference to a schema node, by object identity (heap id). -/
inductive SchemaRef where
  | boolSchema (b : Bool)
  | node (id : Nat)
deriving DecidableEq, Repr

/-- A schema node, with the attributes relevant to sanitization.  `default`
models the optional default value opaquely as a string.  Children
(`anyOf` entries, `items`, `properties` values) are `SchemaRef`s so that one
node object can be shared or form cycles, exactly as JS object references do. -/
structure SchemaNode where
  type : Option GenaiType := none
  format : Option String := none
  default : Option String := none
  enum : Option (List String) := none
  anyOf : Option (List SchemaRef) := none
  items : Option SchemaRef := none
  properties : Option (List (String × SchemaRef)) := none
deriving DecidableEq, Repr

/-- The heap of schema node objects; a JS object identity is an index into it. -/
abbrev Graph := List SchemaNode

/-- Read a node from the heap (total; out-of-range reads give the empty node,
a case that never arises for the ids the sanitizer actually touches). -/
def readNode (g : Graph) (i : Nat) : SchemaNode :=
  (g[i]?).getD {}

/-- JS truthiness of `schema.format`: `undefined` and `""` are falsy. -/
def formatTruthy : Option String → Bool
  | none => false
  | some s => s != ""

/-- The `for (const item of ...)` loops of the source: sanitize each entry of a
list of schema slots in order, skipping literal booleans.  The recursive
sanitizer itself is passed in as `san` so that `sanitizeGo` below remains
structurally recursive on its fuel. -/
def sanitizeList (san : Graph → List Nat → Nat → Option (Graph × List Nat)) :
    Graph → List Nat → List SchemaRef → Option (Graph × List Nat)
  | g, visited, [] => some (g, visited)
  | g, visited, item :: rest =>
    match (match item with
           | SchemaRef.node j => san g visited j
           | SchemaRef.boolSchema _ => some (g, visited)) with
    | none => none
    | some (g', v') => sanitizeList san g' v' rest

/-- Shallow embedding of `sanitizeParametersForGemini(schema, visited)`.
`fuel` bounds the recursion depth (the JS recursion needs no bound; we prove
`g.length + 1` always suffices).  Mirrors the source line by line:
visited/absent guard, mark visited, `anyOf` (clear `default`, recurse on
non-boolean entries), `items` (recurse unless boolean), `properties` (recurse
on non-boolean values), and finally the STRING `format` rule. -/
def sanitizeGo : Nat → Graph → List Nat → Option Nat → Option (Graph × List Nat)
  | 0, _, _, _ => none
  | _ + 1, g, visited, none => some (g, visited)
  | fuel + 1, g, visited, some id =>
    if id ∈ visited then some (g, visited)
    else
      match g[id]? with
      | none => some (g, visited)
      | some n =>
        let visited1 := id :: visited
        match (match n.anyOf with
               | some l =>
                   sanitizeList (fun g v j => sanitizeGo fuel g v (some j))
                     (g.set id { n with default := none }) visited1 l
               | none => some (g, visited1)) with
        | none => none
        | some (g1, v1) =>
          match (match (readNode g1 id).items with
                 | some (SchemaRef.node j) => sanitizeGo fuel g1 v1 (some j)
                 | _ => some (g1, v1)) with
          | none => none
          | some (g2, v2) =>
            match (match (readNode g2 id).properties with
                   | some props =>
                       sanitizeList (fun g v j => sanitizeGo fuel g v (some j))
                         g2 v2 (props.map Prod.snd)
                   | none => some (g2, v2)) with
            | none => none
            | some (g3, v3) =>
              let m := readNode g3 id
              if m.type == some GenaiType.STRING then
                if !(formatTruthy m.format && m.format != some "enum" &&
                     m.format != some "date-time") then
                  some (g3, v3)
                else
                  some (g3.set id { m with format := none }, v3)
              else
                some (g3, v3)

/-- Top-level entry point: the JS call `sanitizeParametersForGemini(schema)`
(with its defaulted fresh `visited` set), supplied with always-sufficient fuel. -/
def sanitizeParametersForGemini (g : Graph) (schema : Option Nat)
    (visited : List Nat := []) : Option (Graph × List Nat) :=
  sanitizeGo (g.length + 1) g visited schema

/-! ### Derived notions used by the specification -/

/-- The ids of the non-boolean schema children of a node: every `anyOf` entry,
the `items` slot, and every `properties` value that is a schema node
(boolean schemas have no children and are skipped). -/
def childIdsOf (n : SchemaNode) : List Nat :=
  ((n.anyOf.getD []) ++ n.items.toList ++ (n.properties.getD []).map Prod.snd).filterMap
    (fun r => match r with
              | SchemaRef.node j => some j
              | SchemaRef.boolSchema _ => none)

/-- Children of the node stored at heap position `i`. -/
def graphChildIds (g : Graph) (i : Nat) : List Nat :=
  childIdsOf (readNode g i)

/-- One traversal edge that avoids the visited set `v`. -/
def stepEdge (g : Graph) (v : List Nat) (a b : Nat) : Prop :=
  b ∈ graphChildIds g a ∧ b < g.length ∧ b ∉ v

/-- `i` is reachable from `r` through child edges whose endpoints are valid
node ids outside the visited set `v` (and `r` itself is valid and unvisited). -/
def Reaches (g : Graph) (v : List Nat) (r i : Nat) : Prop :=
  (r < g.length ∧ r ∉ v) ∧ Relation.ReflTransGen (stepEdge g v) r i

/-- The `anyOf`-guarded clearing of `default` that the sanitizer performs on a
node before recursing into its children. -/
def preSan (n : SchemaNode) : SchemaNode :=
  if n.anyOf.isSome then { n with default := none } else n

/-- The condition under which the sanitizer clears `format`: the node is a
STRING and its `format` is truthy (present and non-empty) and is neither
`"enum"` nor `"date-time"`. -/
def clearsFormat (n : SchemaNode) : Bool :=
  n.type == some GenaiType.STRING &&
    (formatTruthy n.format && n.format != some "enum" && n.format != some "date-time")

/-- The complete effect of the sanitizer on a single node's own fields. -/
def localSanitize (n : SchemaNode) : SchemaNode :=
  if clearsFormat (preSan n) then { preSan n with format := none } else preSan n

/-- Number of valid node ids not yet in the visited set; the measure that
bounds the recursion. -/
def unvisited (g : Graph) (v : List Nat) : Nat :=
  ((List.range g.length).filter (fun i => decide (i ∉ v))).length

/-! ### The run invariant

`RunCore g v g' v' w` records what one (sub-)call of the sanitizer does:
starting from heap `g` and visited list `v` it ends in heap `g'` and visited
list `v'`, having newly processed exactly the ids in `w` (in order): each
processed node is replaced by its `localSanitize`, nothing else changes, no id
is processed twice, and all valid children of processed nodes end up visited. -/

structure RunCore (g : Graph) (v : List Nat) (g' : Graph) (v' : List Nat)
    (w : List Nat) : Prop where
  len_eq : g'.length = g.length
  visits : v' = w ++ v
  nodup : w.Nodup
  fresh : ∀ i ∈ w, i < g.length ∧ i ∉ v
  frame : ∀ i, i ∉ w → g'[i]? = g[i]?
  sanit : ∀ i ∈ w, g'[i]? = (g[i]?).map localSanitize
  closure : ∀ i ∈ w, ∀ j ∈ graphChildIds g i, j < g.length → j ∈ v'

/-! ### Full specification predicates for one call -/

/-- What one call `sanitizeGo fuel g v r = some (g', v')` guarantees:
a `RunCore` for some processing order `w`, plus: a valid root ends up visited,
and everything newly processed is reachable from the root avoiding `v`. -/
def GoRun (g : Graph) (v : List Nat) (r : Option Nat) (g' : Graph) (v' : List Nat) : Prop :=
  ∃ w, RunCore g v g' v' w ∧
    (∀ rid, r = some rid → rid < g.length → rid ∈ v') ∧
    (∀ i ∈ w, ∃ rid, r = some rid ∧ Reaches g v rid i)

/-- The analogue for one loop over a list of schema slots. -/
def ListRun (g : Graph) (v : List Nat) (l : List SchemaRef) (g' : Graph)
    (v' : List Nat) : Prop :=
  ∃ w, RunCore g v g' v' w ∧
    (∀ j, SchemaRef.node j ∈ l → j < g.length → j ∈ v') ∧
    (∀ i ∈ w, ∃ j, SchemaRef.node j ∈ l ∧ Reaches g v j i)

/-! ### Property-order invariance: graphs equal up to `properties` order -/

/-- Boolean test that two optional `properties` maps hold the same bindings up
to iteration order. -/
def propsPermB :
    Option (List (String × SchemaRef)) → Option (List (String × SchemaRef)) → Bool
  | none, none => true
  | some p, some q => decide (p.Perm q)
  | _, _ => false

/-- Two nodes agreeing on every field, with `properties` compared as an
unordered map. -/
def nodePermB (a b : SchemaNode) : Bool :=
  a.type == b.type && a.format == b.format && a.default == b.default &&
    a.enum == b.enum && a.anyOf == b.anyOf && a.items == b.items &&
    propsPermB a.properties b.properties

/-- Two heaps equal up to the iteration order of each node's `properties`. -/
def PropPerm (g₁ g₂ : Graph) : Prop :=
  g₁.length = g₂.length ∧
    ∀ i < g₁.length, nodePermB (readNode g₁ i) (readNode g₂ i) = true

instance (g₁ g₂ : Graph) : Decidable (PropPerm g₁ g₂) := by
  unfold PropPerm
  infer_instance

/-! ### Concrete example graphs (mirroring the unit tests of the source) -/

def nodeObj1 : SchemaNode :=
  { type := some GenaiType.OBJECT,
    properties := some [("name", SchemaRef.node 1), ("id", SchemaRef.node 2)] }

def nodeStr : SchemaNode := { type := some GenaiType.STRING }

def nodeUuid : SchemaNode := { type := some GenaiType.STRING, format := some "uuid" }

def G1 : Graph := [nodeObj1, nodeStr, nodeUuid]

def G1res : Graph := [nodeObj1, nodeStr, { type := some GenaiType.STRING }]

def G1perm : Graph :=
  [{ type := some GenaiType.OBJECT,
     properties := some [("id", SchemaRef.node 2), ("name", SchemaRef.node 1)] },
   nodeStr, nodeUuid]

def G1permRes : Graph :=
  [{ type := some GenaiType.OBJECT,
     properties := some [("id", SchemaRef.node 2), ("name", SchemaRef.node 1)] },
   nodeStr, { type := some GenaiType.STRING }]

def Gany : Graph :=
  [{ anyOf := some [SchemaRef.node 1, SchemaRef.boolSchema true], default := some "x" },
   { type := some GenaiType.STRING, format := some "email" }]

def GanyRes : Graph :=
  [{ anyOf := some [SchemaRef.node 1, SchemaRef.boolSchema true] }, nodeStr]

def Gcyc : Graph :=
  [{ type := some GenaiType.OBJECT,
     properties := some [("name", SchemaRef.node 1), ("self", SchemaRef.node 0)] },
   { type := some GenaiType.STRING, format := some "hostname" }]

def GcycRes : Graph :=
  [{ type := some GenaiType.OBJECT,
     properties := some [("name", SchemaRef.node 1), ("self", SchemaRef.node 0)] },
   nodeStr]

def Gempty : Graph := [{}]

def Gmix : Graph :=
  [{ type := some GenaiType.NUMBER, format := some "uuid",
     items := some (SchemaRef.node 1) },
   { type := some GenaiType.STRING, format := some "uuid" }]

def GmixRes : Graph :=
  [{ type := some GenaiType.NUMBER, format := some "uuid",
     items := some (SchemaRef.node 1) },
   nodeStr]

/-! ### Field-level facts about the per-node transformation -/

theorem preSan_type (n : SchemaNode) : (preSan n).type = n.type := by
  unfold preSan; split <;> rfl

theorem preSan_format (n : SchemaNode) : (preSan n).format = n.format := by
  unfold preSan; split <;> rfl

theorem preSan_enum (n : SchemaNode) : (preSan n).enum = n.enum := by
  unfold preSan; split <;> rfl

theorem preSan_anyOf (n : SchemaNode) : (preSan n).anyOf = n.anyOf := by
  unfold preSan; split <;> rfl

theorem preSan_items (n : SchemaNode) : (preSan n).items = n.items := by
  unfold preSan; split <;> rfl

theorem preSan_properties (n : SchemaNode) : (preSan n).properties = n.properties := by
  unfold preSan; split <;> rfl

theorem preSan_default (n : SchemaNode) :
    (preSan n).default = if n.anyOf.isSome then none else n.default := by
  unfold preSan; split <;> simp_all

theorem localSanitize_type (n : SchemaNode) : (localSanitize n).type = n.type := by
  unfold localSanitize; split <;> simp [preSan_type]

theorem localSanitize_enum (n : SchemaNode) : (localSanitize n).enum = n.enum := by
  unfold localSanitize; split <;> simp [preSan_enum]

theorem localSanitize_anyOf (n : SchemaNode) : (localSanitize n).anyOf = n.anyOf := by
  unfold localSanitize; split <;> simp [preSan_anyOf]

theorem localSanitize_items (n : SchemaNode) : (localSanitize n).items = n.items := by
  unfold localSanitize; split <;> simp [preSan_items]

theorem localSanitize_properties (n : SchemaNode) :
    (localSanitize n).properties = n.properties := by
  unfold localSanitize; split <;> simp [preSan_properties]

theorem localSanitize_default (n : SchemaNode) :
    (localSanitize n).default = if n.anyOf.isSome then none else n.default := by
  unfold localSanitize; split <;> simp [preSan_default]

theorem localSanitize_format (n : SchemaNode) :
    (localSanitize n).format = if clearsFormat (preSan n) then none else n.format := by
  unfold localSanitize; split <;> simp_all [preSan_format]

theorem clearsFormat_preSan (n : SchemaNode) :
    clearsFormat (preSan n) = clearsFormat n := by
  unfold clearsFormat; rw [preSan_type, preSan_format]

theorem childIdsOf_preSan (n : SchemaNode) : childIdsOf (preSan n) = childIdsOf n := by
  unfold childIdsOf; rw [preSan_anyOf, preSan_items, preSan_properties]

theorem childIdsOf_localSanitize (n : SchemaNode) :
    childIdsOf (localSanitize n) = childIdsOf n := by
  unfold childIdsOf; rw [localSanitize_anyOf, localSanitize_items, localSanitize_properties]

theorem set_default_none_eq (m : SchemaNode) (h : m.default = none) :
    { m with default := none } = m := by
  cases m; simp_all

theorem preSan_eq_self (m : SchemaNode) (h : m.anyOf.isSome → m.default = none) :
    preSan m = m := by
  unfold preSan
  split
  · exact set_default_none_eq m (h ‹_›)
  · rfl

theorem localSanitize_eq_self (m : SchemaNode) (hd : m.anyOf.isSome → m.default = none)
    (hf : clearsFormat m = false) : localSanitize m = m := by
  unfold localSanitize
  rw [preSan_eq_self m hd, hf]
  simp

theorem localSanitize_idem (n : SchemaNode) :
    localSanitize (localSanitize n) = localSanitize n := by
  apply localSanitize_eq_self
  · intro h
    rw [localSanitize_anyOf] at h
    rw [localSanitize_default]
    simp [h]
  · by_cases h : clearsFormat (preSan n) = true
    · have h1 : (localSanitize n).format = none := by rw [localSanitize_format, if_pos h]
      simp [clearsFormat, h1, formatTruthy]
    · have h1 : (localSanitize n).format = n.format := by
        rw [localSanitize_format, if_neg h]
      have hc : clearsFormat (localSanitize n) = clearsFormat n := by
        simp [clearsFormat, localSanitize_type, h1]
      rw [hc, ← clearsFormat_preSan n]
      simpa using h

/-! ### Heap access helpers -/

theorem readNode_set_ne (g : Graph) (i j : Nat) (a : SchemaNode) (h : i ≠ j) :
    readNode (g.set i a) j = readNode g j := by
  unfold readNode
  rw [List.getElem?_set_ne h]

theorem readNode_set_self (g : Graph) (i : Nat) (a : SchemaNode) (h : i < g.length) :
    readNode (g.set i a) i = a := by
  unfold readNode
  rw [List.getElem?_set_self h]
  rfl

theorem readNode_of_getElem? (g : Graph) (i : Nat) (n : SchemaNode) (h : g[i]? = some n) :
    readNode g i = n := by
  unfold readNode
  rw [h]
  rfl

theorem lt_length_of_getElem? {g : Graph} {i : Nat} {n : SchemaNode} (h : g[i]? = some n) :
    i < g.length := by
  rcases List.getElem?_eq_some_iff.mp h with ⟨hlt, _⟩
  exact hlt

theorem set_readNode_self (g : Graph) (i : Nat) (n : SchemaNode) (h : g[i]? = some n) :
    g.set i n = g := by
  apply List.ext_getElem?
  intro k
  by_cases hk : i = k
  · subst hk
    rw [List.getElem?_set_self (lt_length_of_getElem? h)]
    exact h.symm
  · rw [List.getElem?_set_ne hk]

theorem graphChildIds_set_preSan (g : Graph) (id : Nat) (n : SchemaNode)
    (h : g[id]? = some n) (k : Nat) :
    graphChildIds (g.set id (preSan n)) k = graphChildIds g k := by
  by_cases hk : id = k
  · subst hk
    unfold graphChildIds
    rw [readNode_set_self _ _ _ (lt_length_of_getElem? h), childIdsOf_preSan,
        readNode_of_getElem? _ _ _ h]
  · unfold graphChildIds
    rw [readNode_set_ne _ _ _ _ hk]

/-! ### Reachability transport lemmas -/

theorem reaches_mono_visited {g : Graph} {v v2 : List Nat} {r i : Nat}
    (h : Reaches g v2 r i) (hsub : ∀ x ∈ v, x ∈ v2) : Reaches g v r i := by
  obtain ⟨⟨hr1, hr2⟩, hpath⟩ := h
  refine ⟨⟨hr1, fun hx => hr2 (hsub _ hx)⟩, ?_⟩
  exact hpath.mono (fun a b hab => ⟨hab.1, hab.2.1, fun hb => hab.2.2 (hsub _ hb)⟩)

theorem reaches_transfer {g' g : Graph} (hlen : g'.length = g.length)
    (hch : ∀ k j, j ∈ graphChildIds g' k → j ∈ graphChildIds g k) {v : List Nat} {r i : Nat}
    (h : Reaches g' v r i) : Reaches g v r i := by
  obtain ⟨⟨hr1, hr2⟩, hpath⟩ := h
  refine ⟨⟨hlen ▸ hr1, hr2⟩, ?_⟩
  exact hpath.mono (fun a b hab => ⟨hch _ _ hab.1, hlen ▸ hab.2.1, hab.2.2⟩)

theorem reaches_head {g : Graph} {v v2 : List Nat} {a c i : Nat}
    (ha : a < g.length) (hav : a ∉ v) (hc : c ∈ graphChildIds g a)
    (h : Reaches g v2 c i) (hsub : ∀ x ∈ v, x ∈ v2) : Reaches g v a i := by
  obtain ⟨⟨hc1, hc2⟩, hpath⟩ := h
  have hcv : c ∉ v := fun hx => hc2 (hsub _ hx)
  refine ⟨⟨ha, hav⟩, Relation.ReflTransGen.head ⟨hc, hc1, hcv⟩ ?_⟩
  exact hpath.mono (fun x y hxy => ⟨hxy.1, hxy.2.1, fun hy => hxy.2.2 (hsub _ hy)⟩)

theorem reaches_refl {g : Graph} {v : List Nat} {r : Nat} (h1 : r < g.length) (h2 : r ∉ v) :
    Reaches g v r r :=
  ⟨⟨h1, h2⟩, Relation.ReflTransGen.refl⟩

/-! ### The recursion measure -/

theorem unvisited_congr {g' g : Graph} (h : g'.length = g.length) (v : List Nat) :
    unvisited g' v = unvisited g v := by
  unfold unvisited
  rw [h]

theorem unvisited_le (g : Graph) (v : List Nat) : unvisited g v ≤ g.length := by
  unfold unvisited
  calc ((List.range g.length).filter _).length ≤ (List.range g.length).length :=
        List.length_filter_le _ _
    _ = g.length := List.length_range _

theorem unvisited_mono {g : Graph} {v v2 : List Nat} (hsub : ∀ x ∈ v, x ∈ v2) :
    unvisited g v2 ≤ unvisited g v := by
  apply List.Sublist.length_le
  apply List.monotone_filter_right
  intro a ha
  simp only [decide_eq_true_eq] at ha ⊢
  exact fun hv => ha (hsub _ hv)

theorem unvisited_cons_lt {g : Graph} {v : List Nat} {id : Nat}
    (hlt : id < g.length) (hnv : id ∉ v) : unvisited g (id :: v) < unvisited g v := by
  have hsub : List.Sublist ((List.range g.length).filter (fun i => decide (i ∉ id :: v)))
      ((List.range g.length).filter (fun i => decide (i ∉ v))) := by
    apply List.monotone_filter_right
    intro a ha
    simp only [decide_eq_true_eq, List.mem_cons, not_or] at ha ⊢
    exact ha.2
  refine Nat.lt_of_le_of_ne hsub.length_le (fun heq => ?_)
  have heql := hsub.eq_of_length heq
  have hidr : id ∈ (List.range g.length).filter (fun i => decide (i ∉ v)) := by
    simp [List.mem_filter, List.mem_range, hlt, hnv]
  rw [← heql] at hidr
  simp [List.mem_filter] at hidr

theorem RunCore.sub_visits {g v g' v' w} (h : RunCore g v g' v' w) :
    ∀ x ∈ v, x ∈ v' := by
  intro x hx
  rw [h.visits]
  exact List.mem_append_right _ hx

theorem RunCore.mem_visits_of_w {g v g' v' w} (h : RunCore g v g' v' w) :
    ∀ x ∈ w, x ∈ v' := by
  intro x hx
  rw [h.visits]
  exact List.mem_append_left _ hx

theorem RunCore.childIds_eq {g v g' v' w} (h : RunCore g v g' v' w) (k : Nat) :
    graphChildIds g' k = graphChildIds g k := by
  by_cases hk : k ∈ w
  · have hs := h.sanit k hk
    unfold graphChildIds readNode
    rw [hs]
    cases hg : g[k]? with
    | none => simp
    | some n => simp [childIdsOf_localSanitize]
  · unfold graphChildIds readNode
    rw [h.frame k hk]

theorem RunCore.refl (g : Graph) (v : List Nat) : RunCore g v g v [] := by
  refine ⟨rfl, rfl, List.nodup_nil, ?_, ?_, ?_, ?_⟩ <;> simp

theorem RunCore.trans {g v g1 v1 w1 g2 v2 w2}
    (h1 : RunCore g v g1 v1 w1) (h2 : RunCore g1 v1 g2 v2 w2) :
    RunCore g v g2 v2 (w2 ++ w1) := by
  have hdisj : ∀ i ∈ w2, i ∉ w1 := by
    intro i hi hmem
    exact (h2.fresh i hi).2 (h1.mem_visits_of_w i hmem)
  refine ⟨?_, ?_, ?_, ?_, ?_, ?_, ?_⟩
  · rw [h2.len_eq, h1.len_eq]
  · rw [h2.visits, h1.visits, List.append_assoc]
  · rw [List.nodup_append]
    exact ⟨h2.nodup, h1.nodup, fun i hi => hdisj i hi⟩
  · intro i hi
    rcases List.mem_append.mp hi with hi2 | hi1
    · obtain ⟨hl, hv⟩ := h2.fresh i hi2
      refine ⟨h1.len_eq ▸ hl, fun hmem => hv (h1.sub_visits i hmem)⟩
    · exact h1.fresh i hi1
  · intro i hi
    rw [List.mem_append, not_or] at hi
    rw [h2.frame i hi.1, h1.frame i hi.2]
  · intro i hi
    rcases List.mem_append.mp hi with hi2 | hi1
    · rw [h2.sanit i hi2, h1.frame i (fun hmem => (h2.fresh i hi2).2 (h1.mem_visits_of_w i hmem))]
    · have hniw2 : i ∉ w2 := fun hmem => (h2.fresh i hmem).2 (h1.mem_visits_of_w i hi1)
      rw [h2.frame i hniw2]
      exact h1.sanit i hi1
  · intro i hi j hj hjl
    rcases List.mem_append.mp hi with hi2 | hi1
    · have hje := h2.closure i hi2 j ((h1.childIds_eq i).symm ▸ hj) (h1.len_eq ▸ hjl)
      exact hje
    · exact h2.sub_visits j (h1.closure i hi1 j hj hjl)

/-! ### Membership in a node's child list -/

theorem childIdsOf_anyOf_mem {n : SchemaNode} {l : List SchemaRef} (hA : n.anyOf = some l)
    {j : Nat} (hj : SchemaRef.node j ∈ l) : j ∈ childIdsOf n := by
  unfold childIdsOf
  exact List.mem_filterMap.mpr ⟨SchemaRef.node j, by simp [hA, hj], rfl⟩

theorem childIdsOf_items_mem {n : SchemaNode} {j : Nat}
    (hI : n.items = some (SchemaRef.node j)) : j ∈ childIdsOf n := by
  unfold childIdsOf
  exact List.mem_filterMap.mpr ⟨SchemaRef.node j, by simp [hI, Option.toList], rfl⟩

theorem childIdsOf_properties_mem {n : SchemaNode} {props : List (String × SchemaRef)}
    (hP : n.properties = some props) {j : Nat} (hj : SchemaRef.node j ∈ props.map Prod.snd) :
    j ∈ childIdsOf n := by
  unfold childIdsOf
  exact List.mem_filterMap.mpr ⟨SchemaRef.node j, by simp [hP, hj], rfl⟩

theorem childIdsOf_cases {n : SchemaNode} {j : Nat} (hj : j ∈ childIdsOf n) :
    (∃ l, n.anyOf = some l ∧ SchemaRef.node j ∈ l) ∨
    n.items = some (SchemaRef.node j) ∨
    (∃ props, n.properties = some props ∧ SchemaRef.node j ∈ props.map Prod.snd) := by
  unfold childIdsOf at hj
  rcases List.mem_filterMap.mp hj with ⟨r, hr, hconv⟩
  cases r with
  | boolSchema b => simp at hconv
  | node k =>
    have hkj : k = j := by simpa using hconv
    subst hkj
    rcases List.mem_append.mp hr with hr12 | hr3
    · rcases List.mem_append.mp hr12 with hr1 | hr2
      · left
        cases hA : n.anyOf with
        | none => rw [hA] at hr1; simp at hr1
        | some l => exact ⟨l, rfl, by rw [hA] at hr1; simpa using hr1⟩
      · right; left
        cases hI : n.items with
        | none => rw [hI] at hr2; simp [Option.toList] at hr2
        | some r' =>
          rw [hI] at hr2
          simp [Option.toList] at hr2
          rw [hr2]
    · right; right
      cases hP : n.properties with
      | none => rw [hP] at hr3; simp at hr3
      | some props => exact ⟨props, rfl, by rw [hP] at hr3; simpa using hr3⟩

/-! ### Assembling the run invariant for one processed node -/

theorem runCore_frame {g : Graph} {v : List Nat} {id : Nat} {n : SchemaNode}
    {g3 g' : Graph} {v3 wmid : List Nat}
    (hn : g[id]? = some n) (hid : id ∉ v)
    (hmid : RunCore (g.set id (preSan n)) (id :: v) g3 v3 wmid)
    (hcid : ∀ j ∈ childIdsOf n, j < g.length → j ∈ v3)
    (hout : g' = if clearsFormat (preSan n) then
        g3.set id { preSan n with format := none } else g3) :
    RunCore g v g' v3 (wmid ++ [id]) := by
  have hlt : id < g.length := lt_length_of_getElem? hn
  have hsetlen : (g.set id (preSan n)).length = g.length := List.length_set ..
  have hg3len : g3.length = g.length := by rw [hmid.len_eq, hsetlen]
  have hnotmid : id ∉ wmid := fun hmem => (hmid.fresh id hmem).2 (List.mem_cons_self _ _)
  have hg3id : g3[id]? = some (preSan n) := by
    rw [hmid.frame id hnotmid, List.getElem?_set_self (hsetlen ▸ hlt)]
  have hg'len : g'.length = g.length := by
    rw [hout]; split
    · rw [List.length_set, hg3len]
    · exact hg3len
  have hg'id : g'[id]? = some (localSanitize n) := by
    rw [hout]
    unfold localSanitize
    split
    · rw [List.getElem?_set_self (hg3len ▸ hlt)]
    · exact hg3id
  have hg'other : ∀ k, k ≠ id → g'[k]? = g3[k]? := by
    intro k hk
    rw [hout]
    split
    · rw [List.getElem?_set_ne (fun he => hk he.symm)]
    · rfl
  refine ⟨hg'len, ?_, ?_, ?_, ?_, ?_, ?_⟩
  · rw [hmid.visits]
    simp
  · rw [List.nodup_append]
    refine ⟨hmid.nodup, List.nodup_singleton _, ?_⟩
    intro a ha hsing
    rw [List.mem_singleton] at hsing
    subst hsing
    exact hnotmid ha
  · intro i hi
    rcases List.mem_append.mp hi with hiw | hii
    · obtain ⟨h1, h2⟩ := hmid.fresh i hiw
      exact ⟨hsetlen ▸ h1, fun hm => h2 (List.mem_cons_of_mem _ hm)⟩
    · rw [List.mem_singleton] at hii
      subst hii
      exact ⟨hlt, hid⟩
  · intro i hi
    rw [List.mem_append, not_or, List.mem_singleton] at hi
    rw [hg'other i hi.2, hmid.frame i hi.1, List.getElem?_set_ne (fun he => hi.2 he.symm)]
  · intro i hi
    rcases List.mem_append.mp hi with hiw | hii
    · have hne : i ≠ id := fun he => hnotmid (he ▸ hiw)
      rw [hg'other i hne, hmid.sanit i hiw, List.getElem?_set_ne (fun he => hne he.symm)]
    · rw [List.mem_singleton] at hii
      subst hii
      rw [hg'id, hn]
      rfl
  · intro i hi j hj hjl
    rcases List.mem_append.mp hi with hiw | hii
    · have hje := hmid.closure i hiw j
        (by rw [graphChildIds_set_preSan g id n hn i]; exact hj) (hsetlen ▸ hjl)
      exact hje
    · rw [List.mem_singleton] at hii
      subst hii
      rw [graphChildIds, readNode_of_getElem? _ _ _ hn] at hj
      exact hcid j hj hjl

/-- Lifting reachability found inside a child run back to the node that
spawned it. -/
theorem reaches_through_mid {g : Graph} {v : List Nat} {id : Nat} {n : SchemaNode}
    (hn : g[id]? = some n) (hid : id ∉ v)
    {gmid : Graph} {vmid wacc : List Nat}
    (hacc : RunCore (g.set id (preSan n)) (id :: v) gmid vmid wacc)
    {c i : Nat} (hc : c ∈ childIdsOf n) (hre : Reaches gmid vmid c i) :
    Reaches g v id i := by
  have hlt := lt_length_of_getElem? hn
  have hlen : gmid.length = g.length := by rw [hacc.len_eq, List.length_set]
  have hch : ∀ k j, j ∈ graphChildIds gmid k → j ∈ graphChildIds g k := by
    intro k j hj
    rw [hacc.childIds_eq k, graphChildIds_set_preSan g id n hn k] at hj
    exact hj
  have h2 : Reaches g vmid c i := reaches_transfer hlen hch hre
  refine reaches_head hlt hid ?_ h2 ?_
  · rw [graphChildIds, readNode_of_getElem? g id n hn]
    exact hc
  · intro x hx
    exact hacc.sub_visits x (List.mem_cons_of_mem _ hx)

theorem list_spec_of_go (fuel : Nat)
    (hgo : ∀ g v r out, sanitizeGo fuel g v r = some out → GoRun g v r out.1 out.2) :
    ∀ (l : List SchemaRef) (g : Graph) (v : List Nat) (out : Graph × List Nat),
      sanitizeList (fun g v j => sanitizeGo fuel g v (some j)) g v l = some out →
      ListRun g v l out.1 out.2 := by
  intro l
  induction l with
  | nil =>
    intro g v out h
    simp only [sanitizeList] at h
    obtain rfl : (g, v) = out := by injection h
    refine ⟨[], RunCore.refl g v, ?_, ?_⟩
    · intro j hj
      cases hj
    · intro i hi
      cases hi
  | cons item rest ih =>
    intro g v out h
    cases item with
    | boolSchema b =>
      simp only [sanitizeList] at h
      obtain ⟨w, hcore, hroot, hsound⟩ := ih g v out h
      refine ⟨w, hcore, ?_, ?_⟩
      · intro j hj hjl
        rcases List.mem_cons.mp hj with hbad | hj'
        · cases hbad
        · exact hroot j hj' hjl
      · intro i hi
        obtain ⟨j, hj, hre⟩ := hsound i hi
        exact ⟨j, List.mem_cons_of_mem _ hj, hre⟩
    | node j =>
      simp only [sanitizeList] at h
      cases hj : sanitizeGo fuel g v (some j) with
      | none => rw [hj] at h; cases h
      | some gv1 =>
        rw [hj] at h
        obtain ⟨g1, v1⟩ := gv1
        obtain ⟨w1, hc1, hroot1, hsound1⟩ := hgo g v (some j) (g1, v1) hj
        obtain ⟨w2, hc2, hroot2, hsound2⟩ := ih g1 v1 out h
        refine ⟨w2 ++ w1, hc1.trans hc2, ?_, ?_⟩
        · intro k hk hkl
          rcases List.mem_cons.mp hk with hkj | hk'
          · have hkj' : k = j := by injection hkj
            subst hkj'
            exact hc2.sub_visits k (hroot1 k rfl hkl)
          · exact hroot2 k hk' (hc1.len_eq ▸ hkl)
        · intro i hi
          rcases List.mem_append.mp hi with hi2 | hi1
          · obtain ⟨k, hk, hre⟩ := hsound2 i hi2
            have hre' : Reaches g v1 k i :=
              reaches_transfer hc1.len_eq
                (fun a b hb => (hc1.childIds_eq a) ▸ hb) hre
            exact ⟨k, List.mem_cons_of_mem _ hk,
              reaches_mono_visited hre' hc1.sub_visits⟩
          · obtain ⟨rid, hrid, hre⟩ := hsound1 i hi1
            have hridj : rid = j := by injection hrid.symm
            subst hridj
            exact ⟨rid, List.mem_cons_self _ _, hre⟩

/-- Bridging the source's nested `if`s for the STRING `format` rule to the
single condition `clearsFormat`. -/
theorem final_if_eq (g3 : Graph) (v3 : List Nat) (id : Nat) (m : SchemaNode) :
    (if m.type == some GenaiType.STRING then
       if !(formatTruthy m.format && m.format != some "enum" &&
            m.format != some "date-time") then
         some (g3, v3)
       else
         some (g3.set id { m with format := none }, v3)
     else some (g3, v3)) =
    some (if clearsFormat m then (g3.set id { m with format := none }, v3)
          else (g3, v3)) := by
  unfold clearsFormat
  cases hty : (m.type == some GenaiType.STRING) with
  | false => simp [hty]
  | true =>
    cases hf : (formatTruthy m.format && m.format != some "enum" &&
        m.format != some "date-time") with
    | false => simp [hty, hf]
    | true => simp [hty, hf]

/-- Final assembly: once the three child phases have produced an accumulated
run from the pre-sanitized heap, the whole call satisfies `GoRun`. -/
theorem goRun_assemble {g : Graph} {v : List Nat} {id : Nat} {n : SchemaNode}
    {g3 : Graph} {v3 wmid : List Nat} {out : Graph × List Nat}
    (hn : g[id]? = some n) (hmem : id ∉ v)
    (hcoremid : RunCore (g.set id (preSan n)) (id :: v) g3 v3 wmid)
    (hcid : ∀ j ∈ childIdsOf n, j < g.length → j ∈ v3)
    (hsoundmid : ∀ i ∈ wmid, Reaches g v id i)
    (hfin : (if clearsFormat (preSan n) then
        (g3.set id { preSan n with format := none }, v3) else (g3, v3)) = out) :
    GoRun g v (some id) out.1 out.2 := by
  have hlt : id < g.length := lt_length_of_getElem? hn
  have hout2 : out.2 = v3 := by
    rw [← hfin]
    split <;> rfl
  have hout1 : out.1 = if clearsFormat (preSan n) then
      g3.set id { preSan n with format := none } else g3 := by
    rw [← hfin]
    split <;> simp_all
  have hcore : RunCore g v out.1 v3 (wmid ++ [id]) :=
    runCore_frame hn hmem hcoremid hcid hout1
  rw [hout2]
  refine ⟨wmid ++ [id], hcore, ?_, ?_⟩
  · intro rid hr _
    have hr' : id = rid := by injection hr
    subst hr'
    exact hcoremid.sub_visits id (List.mem_cons_self _ _)
  · intro i hi
    rcases List.mem_append.mp hi with hiw | hii
    · exact ⟨id, rfl, hsoundmid i hiw⟩
    · rw [List.mem_singleton] at hii
      exact ⟨id, rfl, by rw [hii]; exact reaches_refl hlt hmem⟩

theorem childIdsOf_anyOf_getD_mem {n : SchemaNode} {c : Nat}
    (h : SchemaRef.node c ∈ n.anyOf.getD []) : c ∈ childIdsOf n := by
  unfold childIdsOf
  exact List.mem_filterMap.mpr
    ⟨SchemaRef.node c, List.mem_append_left _ (List.mem_append_left _ h), rfl⟩

theorem childIdsOf_props_getD_mem {n : SchemaNode} {c : Nat}
    (h : SchemaRef.node c ∈ (n.properties.getD []).map Prod.snd) : c ∈ childIdsOf n := by
  unfold childIdsOf
  exact List.mem_filterMap.mpr ⟨SchemaRef.node c, List.mem_append_right _ h, rfl⟩

/-- One full processing step of a fresh node satisfies `GoRun`, assuming the
specification for all direct recursive calls (`fuel` one smaller). -/
theorem go_step_spec (fuel : Nat)
    (ihgo : ∀ g v r out, sanitizeGo fuel g v r = some out → GoRun g v r out.1 out.2)
    (g : Graph) (v : List Nat) (id : Nat) (out : Graph × List Nat)
    (h : sanitizeGo (fuel + 1) g v (some id) = some out) :
    GoRun g v (some id) out.1 out.2 := by
  have hlist := list_spec_of_go fuel ihgo
  simp only [sanitizeGo] at h
  split at h
  · -- the root is already visited: nothing happens
    next hmem =>
    obtain rfl : (g, v) = out := by injection h
    refine ⟨[], RunCore.refl g v, ?_, ?_⟩
    · intro rid hr _
      have he : id = rid := by injection hr
      exact he ▸ hmem
    · intro i hi
      cases hi
  · next hmem =>
    split at h
    · -- the root id is not a node of the heap (cannot happen for closed graphs)
      next hn =>
      obtain rfl : (g, v) = out := by injection h
      refine ⟨[], RunCore.refl g v, ?_, ?_⟩
      · intro rid hr hrl
        have he : id = rid := by injection hr
        rw [List.getElem?_eq_none_iff] at hn
        omega
      · intro i hi
        cases hi
    · next n hn =>
      have hlt : id < g.length := lt_length_of_getElem? hn
      have hsetlen : (g.set id (preSan n)).length = g.length := List.length_set ..
      split at h
      · next hst1 =>
        cases h
      · next g1 v1 hst1 =>
        -- phase 1: the anyOf block
        have hspec1 : ∃ w1, RunCore (g.set id (preSan n)) (id :: v) g1 v1 w1 ∧
            (∀ j, SchemaRef.node j ∈ n.anyOf.getD [] → j < g.length → j ∈ v1) ∧
            (∀ i ∈ w1, ∃ c, SchemaRef.node c ∈ n.anyOf.getD [] ∧
              Reaches (g.set id (preSan n)) (id :: v) c i) := by
          cases hA : n.anyOf with
          | none =>
            simp only [hA] at hst1
            rw [Option.some.injEq, Prod.mk.injEq] at hst1
            obtain ⟨rfl, rfl⟩ := hst1
            have hpre : preSan n = n := by simp [preSan, hA]
            refine ⟨[], ?_, ?_, ?_⟩
            · rw [hpre, set_readNode_self g id n hn]
              exact RunCore.refl _ _
            · intro j hj
              simp at hj
            · intro i hi
              cases hi
          | some l =>
            simp only [hA] at hst1
            have hpre : preSan n = { n with default := none } := by simp [preSan, hA]
            have hst1' : sanitizeList (fun g v j => sanitizeGo fuel g v (some j))
                (g.set id (preSan n)) (id :: v) l = some (g1, v1) := by
              rw [hpre]
              simp only [hA]
              exact hst1
            obtain ⟨w1, hc1, hroot1, hsound1⟩ := hlist l _ _ _ hst1'
            refine ⟨w1, hc1, ?_, ?_⟩
            · intro j hj hjl
              simp only [Option.getD_some] at hj
              exact hroot1 j hj (by rw [hsetlen]; exact hjl)
            · intro i hi
              obtain ⟨c, hcmem, hre⟩ := hsound1 i hi
              exact ⟨c, by simpa using hcmem, hre⟩
        obtain ⟨w1, hcore1, hR1, hS1raw⟩ := hspec1
        have hS1 : ∀ i ∈ w1, Reaches g v id i := by
          intro i hi
          obtain ⟨c, hcmem, hre⟩ := hS1raw i hi
          exact reaches_through_mid hn hmem (RunCore.refl _ _)
            (childIdsOf_anyOf_getD_mem hcmem) hre
        have hidw1 : id ∉ w1 :=
          fun hmemw => (hcore1.fresh id hmemw).2 (List.mem_cons_self _ _)
        have hread1 : readNode g1 id = preSan n := by
          have hfr := hcore1.frame id hidw1
          rw [List.getElem?_set_self hlt] at hfr
          exact readNode_of_getElem? _ _ _ hfr
        rw [hread1, preSan_items] at h
        split at h
        · next hst2 =>
          cases h
        · next g2 v2 hst2 =>
          -- phase 2: the items block
          have hspec2 : ∃ w2, RunCore g1 v1 g2 v2 w2 ∧
              (∀ j, n.items = some (SchemaRef.node j) → j < g1.length → j ∈ v2) ∧
              (∀ i ∈ w2, ∃ j, n.items = some (SchemaRef.node j) ∧ Reaches g1 v1 j i) := by
            cases hI : n.items with
            | none =>
              simp only [hI] at hst2
              rw [Option.some.injEq, Prod.mk.injEq] at hst2
              obtain ⟨rfl, rfl⟩ := hst2
              refine ⟨[], RunCore.refl _ _, ?_, ?_⟩
              · intro j hj
                cases hj
              · intro i hi
                cases hi
            | some r =>
              cases r with
              | boolSchema b =>
                simp only [hI] at hst2
                rw [Option.some.injEq, Prod.mk.injEq] at hst2
                obtain ⟨rfl, rfl⟩ := hst2
                refine ⟨[], RunCore.refl _ _, ?_, ?_⟩
                · intro j hj
                  simp at hj
                · intro i hi
                  cases hi
              | node j =>
                simp only [hI] at hst2
                obtain ⟨w2, hc2, hroot2, hsound2⟩ := ihgo g1 v1 (some j) (g2, v2) hst2
                refine ⟨w2, hc2, ?_, ?_⟩
                · intro k hk hkl
                  rw [Option.some.injEq, SchemaRef.node.injEq] at hk
                  exact hroot2 k (by rw [hk]) hkl
                · intro i hi
                  obtain ⟨rid, hr, hre⟩ := hsound2 i hi
                  have hjr : j = rid := by injection hr
                  exact ⟨rid, by rw [hjr], hre⟩
          obtain ⟨w2, hcore2, hR2, hS2raw⟩ := hspec2
          have hmid2 : RunCore (g.set id (preSan n)) (id :: v) g2 v2 (w2 ++ w1) :=
            hcore1.trans hcore2
          have hS2 : ∀ i ∈ w2, Reaches g v id i := by
            intro i hi
            obtain ⟨j, hIj, hre⟩ := hS2raw i hi
            exact reaches_through_mid hn hmem hcore1 (childIdsOf_items_mem hIj) hre
          have hidw2 : id ∉ w2 ++ w1 :=
            fun hmemw => (hmid2.fresh id hmemw).2 (List.mem_cons_self _ _)
          have hread2 : readNode g2 id = preSan n := by
            have hfr := hmid2.frame id hidw2
            rw [List.getElem?_set_self hlt] at hfr
            exact readNode_of_getElem? _ _ _ hfr
          rw [hread2, preSan_properties] at h
          split at h
          · next hst3 =>
            cases h
          · next g3 v3 hst3 =>
            -- phase 3: the properties block
            have hspec3 : ∃ w3, RunCore g2 v2 g3 v3 w3 ∧
                (∀ j props, n.properties = some props →
                  SchemaRef.node j ∈ props.map Prod.snd → j < g2.length → j ∈ v3) ∧
                (∀ i ∈ w3, ∃ c, SchemaRef.node c ∈ (n.properties.getD []).map Prod.snd ∧
                  Reaches g2 v2 c i) := by
              cases hP : n.properties with
              | none =>
                simp only [hP] at hst3
                rw [Option.some.injEq, Prod.mk.injEq] at hst3
                obtain ⟨rfl, rfl⟩ := hst3
                refine ⟨[], RunCore.refl _ _, ?_, ?_⟩
                · intro j props hp
                  cases hp
                · intro i hi
                  cases hi
              | some props =>
                simp only [hP] at hst3
                obtain ⟨w3, hc3, hroot3, hsound3⟩ := hlist (props.map Prod.snd) _ _ _ hst3
                refine ⟨w3, hc3, ?_, ?_⟩
                · intro j props' hp' hjmem hjl
                  rw [Option.some.injEq] at hp'
                  subst hp'
                  exact hroot3 j hjmem hjl
                · intro i hi
                  obtain ⟨c, hcmem, hre⟩ := hsound3 i hi
                  exact ⟨c, by simpa using hcmem, hre⟩
            obtain ⟨w3, hcore3, hR3, hS3raw⟩ := hspec3
            have hmid3 : RunCore (g.set id (preSan n)) (id :: v) g3 v3 (w3 ++ (w2 ++ w1)) :=
              hmid2.trans hcore3
            have hS3 : ∀ i ∈ w3, Reaches g v id i := by
              intro i hi
              obtain ⟨c, hcmem, hre⟩ := hS3raw i hi
              exact reaches_through_mid hn hmem hmid2 (childIdsOf_props_getD_mem hcmem) hre
            have hidw3 : id ∉ w3 ++ (w2 ++ w1) :=
              fun hmemw => (hmid3.fresh id hmemw).2 (List.mem_cons_self _ _)
            have hread3 : readNode g3 id = preSan n := by
              have hfr := hmid3.frame id hidw3
              rw [List.getElem?_set_self hlt] at hfr
              exact readNode_of_getElem? _ _ _ hfr
            rw [hread3, final_if_eq] at h
            have hfin : (if clearsFormat (preSan n) then
                (g3.set id { preSan n with format := none }, v3) else (g3, v3)) = out := by
              injection h
            have hcid : ∀ j ∈ childIdsOf n, j < g.length → j ∈ v3 := by
              intro j hj hjl
              rcases childIdsOf_cases hj with ⟨l', hA', hjm⟩ | hI' | ⟨props', hP', hjm⟩
              · have hj1 : j ∈ v1 := hR1 j (by rw [hA']; simpa using hjm) hjl
                exact hcore3.sub_visits j (hcore2.sub_visits j hj1)
              · have hj2 : j ∈ v2 := hR2 j hI' (by rw [hcore1.len_eq, hsetlen]; exact hjl)
                exact hcore3.sub_visits j hj2
              · exact hR3 j props' hP' hjm (by rw [hmid2.len_eq, hsetlen]; exact hjl)
            have hsoundmid : ∀ i ∈ w3 ++ (w2 ++ w1), Reaches g v id i := by
              intro i hi
              rcases List.mem_append.mp hi with h3 | h12
              · exact hS3 i h3
              · rcases List.mem_append.mp h12 with h2 | h1
                · exact hS2 i h2
                · exact hS1 i h1
            exact goRun_assemble hn hmem hmid3 hcid hsoundmid hfin

/-- The full specification of `sanitizeGo`, for every fuel value. -/
theorem go_spec : ∀ (fuel : Nat) (g : Graph) (v : List Nat) (r : Option Nat)
    (out : Graph × List Nat),
    sanitizeGo fuel g v r = some out → GoRun g v r out.1 out.2 := by
  intro fuel
  induction fuel with
  | zero =>
    intro g v r out h
    simp [sanitizeGo] at h
  | succ fuel ih =>
    intro g v r out h
    cases r with
    | none =>
      simp only [sanitizeGo] at h
      obtain rfl : (g, v) = out := by injection h
      refine ⟨[], RunCore.refl g v, ?_, ?_⟩
      · intro rid hr
        cases hr
      · intro i hi
        cases hi
    | some id => exact go_step_spec fuel ih g v id out h

/-- One-layer unfolding of `sanitizeGo` on a present root (the recursive calls
inside stay folded, unlike with a full `simp [sanitizeGo]`). -/
theorem sanitizeGo_succ_eq (fuel : Nat) (g : Graph) (v : List Nat) (id : Nat) :
    sanitizeGo (fuel + 1) g v (some id) =
      (if id ∈ v then some (g, v)
       else
         match g[id]? with
         | none => some (g, v)
         | some n =>
           match (match n.anyOf with
                  | some l =>
                      sanitizeList (fun g v j => sanitizeGo fuel g v (some j))
                        (g.set id { n with default := none }) (id :: v) l
                  | none => some (g, id :: v)) with
           | none => none
           | some (g1, v1) =>
             match (match (readNode g1 id).items with
                    | some (SchemaRef.node j) => sanitizeGo fuel g1 v1 (some j)
                    | _ => some (g1, v1)) with
             | none => none
             | some (g2, v2) =>
               match (match (readNode g2 id).properties with
                      | some props =>
                          sanitizeList (fun g v j => sanitizeGo fuel g v (some j))
                            g2 v2 (props.map Prod.snd)
                      | none => some (g2, v2)) with
               | none => none
               | some (g3, v3) =>
                 if (readNode g3 id).type == some GenaiType.STRING then
                   if !(formatTruthy (readNode g3 id).format &&
                        (readNode g3 id).format != some "enum" &&
                        (readNode g3 id).format != some "date-time") then
                     some (g3, v3)
                   else
                     some (g3.set id { readNode g3 id with format := none }, v3)
                 else
                   some (g3, v3)) := rfl

/-- Adding fuel never changes a successful result (one step). -/
theorem fuel_mono : ∀ fuel : Nat,
    (∀ g v r out, sanitizeGo fuel g v r = some out →
      sanitizeGo (fuel + 1) g v r = some out) ∧
    (∀ g v l out,
      sanitizeList (fun g v j => sanitizeGo fuel g v (some j)) g v l = some out →
      sanitizeList (fun g v j => sanitizeGo (fuel + 1) g v (some j)) g v l = some out) := by
  intro fuel
  induction fuel with
  | zero =>
    constructor
    · intro g v r out h
      simp [sanitizeGo] at h
    · intro g v l out h
      induction l generalizing g v with
      | nil => exact h
      | cons item rest ih =>
        cases item with
        | node j => simp [sanitizeList, sanitizeGo] at h
        | boolSchema b =>
          simp only [sanitizeList] at h ⊢
          exact ih _ _ h
  | succ fuel ihp =>
    obtain ⟨ihgo, ihlist⟩ := ihp
    have hgo : ∀ g v r out, sanitizeGo (fuel + 1) g v r = some out →
        sanitizeGo (fuel + 2) g v r = some out := by
      intro g v r out h
      cases r with
      | none => simpa [sanitizeGo] using h
      | some id =>
        rw [sanitizeGo_succ_eq] at h
        rw [sanitizeGo_succ_eq]
        by_cases hmem : id ∈ v
        · rw [if_pos hmem] at h ⊢
          exact h
        · rw [if_neg hmem] at h ⊢
          cases hn : g[id]? with
          | none =>
            simp only [hn] at h ⊢
            exact h
          | some n =>
            simp only [hn] at h ⊢
            cases hA : n.anyOf with
            | some l =>
              simp only [hA] at h ⊢
              split at h
              · next hst1 => cases h
              · next g1 v1 hst1 =>
                simp only [ihlist _ _ _ _ hst1]
                cases hit : (readNode g1 id).items with
                | none =>
                  simp only [hit] at h ⊢
                  cases hpp : (readNode g1 id).properties with
                  | none =>
                    simp only [hpp] at h ⊢
                    exact h
                  | some props =>
                    simp only [hpp] at h ⊢
                    split at h
                    · next hst3 => cases h
                    · next g3 v3 hst3 =>
                      simp only [ihlist _ _ _ _ hst3]
                      exact h
                | some r =>
                  cases r with
                  | boolSchema b =>
                    simp only [hit] at h ⊢
                    cases hpp : (readNode g1 id).properties with
                    | none =>
                      simp only [hpp] at h ⊢
                      exact h
                    | some props =>
                      simp only [hpp] at h ⊢
                      split at h
                      · next hst3 => cases h
                      · next g3 v3 hst3 =>
                        simp only [ihlist _ _ _ _ hst3]
                        exact h
                  | node j =>
                    simp only [hit] at h ⊢
                    split at h
                    · next hst2 => cases h
                    · next g2 v2 hst2 =>
                      simp only [ihgo _ _ _ _ hst2]
                      cases hpp : (readNode g2 id).properties with
                      | none =>
                        simp only [hpp] at h ⊢
                        exact h
                      | some props =>
                        simp only [hpp] at h ⊢
                        split at h
                        · next hst3 => cases h
                        · next g3 v3 hst3 =>
                          simp only [ihlist _ _ _ _ hst3]
                          exact h
            | none =>
              simp only [hA] at h ⊢
              cases hit : (readNode g id).items with
              | none =>
                simp only [hit] at h ⊢
                cases hpp : (readNode g id).properties with
                | none =>
                  simp only [hpp] at h ⊢
                  exact h
                | some props =>
                  simp only [hpp] at h ⊢
                  split at h
                  · next hst3 => cases h
                  · next g3 v3 hst3 =>
                    simp only [ihlist _ _ _ _ hst3]
                    exact h
              | some r =>
                cases r with
                | boolSchema b =>
                  simp only [hit] at h ⊢
                  cases hpp : (readNode g id).properties with
                  | none =>
                    simp only [hpp] at h ⊢
                    exact h
                  | some props =>
                    simp only [hpp] at h ⊢
                    split at h
                    · next hst3 => cases h
                    · next g3 v3 hst3 =>
                      simp only [ihlist _ _ _ _ hst3]
                      exact h
                | node j =>
                  simp only [hit] at h ⊢
                  split at h
                  · next hst2 => cases h
                  · next g2 v2 hst2 =>
                    simp only [ihgo _ _ _ _ hst2]
                    cases hpp : (readNode g2 id).properties with
                    | none =>
                      simp only [hpp] at h ⊢
                      exact h
                    | some props =>
                      simp only [hpp] at h ⊢
                      split at h
                      · next hst3 => cases h
                      · next g3 v3 hst3 =>
                        simp only [ihlist _ _ _ _ hst3]
                        exact h
    refine ⟨hgo, ?_⟩
    intro g v l out h
    induction l generalizing g v with
    | nil => exact h
    | cons item rest ih =>
      cases item with
      | boolSchema b =>
        simp only [sanitizeList] at h ⊢
        exact ih _ _ h
      | node j =>
        simp only [sanitizeList] at h ⊢
        split at h
        · next hstep => cases h
        · next g' v' hstep =>
          simp only [hgo _ _ _ _ hstep]
          exact ih _ _ h

theorem sanitizeGo_mono {fuel fuel' : Nat} (hle : fuel ≤ fuel') {g : Graph}
    {v : List Nat} {r : Option Nat} {out : Graph × List Nat}
    (h : sanitizeGo fuel g v r = some out) : sanitizeGo fuel' g v r = some out := by
  induction fuel', hle using Nat.le_induction with
  | base => exact h
  | succ k hk ih => exact (fuel_mono k).1 _ _ _ _ ih

/-- With more fuel than there are unvisited nodes, the sanitizer always
completes: this is the termination guarantee of the visited-set guard. -/
theorem adequate : ∀ fuel : Nat,
    (∀ g v r, unvisited g v < fuel → (sanitizeGo fuel g v r).isSome) ∧
    (∀ g v l, unvisited g v < fuel →
      (sanitizeList (fun g v j => sanitizeGo fuel g v (some j)) g v l).isSome) := by
  intro fuel
  induction fuel with
  | zero =>
    constructor
    · intro g v r h
      omega
    · intro g v l h
      omega
  | succ fuel ihp =>
    obtain ⟨ihgo, ihlist⟩ := ihp
    have hgo : ∀ g v r, unvisited g v < fuel + 1 → (sanitizeGo (fuel + 1) g v r).isSome := by
      intro g v r hf
      cases r with
      | none => simp [sanitizeGo]
      | some id =>
        rw [sanitizeGo_succ_eq]
        by_cases hmem : id ∈ v
        · rw [if_pos hmem]
          simp
        · rw [if_neg hmem]
          split
          · next hn => simp
          · next n hn =>
            have hlt : id < g.length := lt_length_of_getElem? hn
            have hunv : unvisited g (id :: v) < fuel := by
              have h1 := unvisited_cons_lt hlt hmem
              omega
            split
            · next hst1 =>
              exfalso
              cases hA : n.anyOf with
              | none =>
                simp only [hA] at hst1
                cases hst1
              | some l =>
                simp only [hA] at hst1
                have hs := ihlist (g.set id { n with default := none }) (id :: v) l
                  (by rw [unvisited_congr (List.length_set ..)]; exact hunv)
                simp only [hA] at hs
                rw [hst1] at hs
                simp at hs
            · next g1 v1 hst1 =>
              have hstate1 : g1.length = g.length ∧ ∀ x ∈ id :: v, x ∈ v1 := by
                cases hA : n.anyOf with
                | none =>
                  simp only [hA] at hst1
                  rw [Option.some.injEq, Prod.mk.injEq] at hst1
                  obtain ⟨rfl, rfl⟩ := hst1
                  exact ⟨rfl, fun x hx => hx⟩
                | some l =>
                  simp only [hA] at hst1
                  obtain ⟨w1, hc1, _, _⟩ := list_spec_of_go fuel (go_spec fuel) l _ _ _ hst1
                  exact ⟨by rw [hc1.len_eq, List.length_set], hc1.sub_visits⟩
              have hunv1 : unvisited g1 v1 < fuel := by
                have hm := unvisited_mono (g := g1) hstate1.2
                rw [unvisited_congr hstate1.1 v1, unvisited_congr hstate1.1 (id :: v)] at hm
                rw [unvisited_congr hstate1.1 v1]
                omega
              split
              · next hst2 =>
                exfalso
                cases hit : (readNode g1 id).items with
                | none =>
                  simp only [hit] at hst2
                  cases hst2
                | some rr =>
                  cases rr with
                  | boolSchema b =>
                    simp only [hit] at hst2
                    cases hst2
                  | node j =>
                    simp only [hit] at hst2
                    have hs := ihgo g1 v1 (some j) hunv1
                    rw [hst2] at hs
                    simp at hs
              · next g2 v2 hst2 =>
                have hstate2 : g2.length = g1.length ∧ ∀ x ∈ v1, x ∈ v2 := by
                  cases hit : (readNode g1 id).items with
                  | none =>
                    simp only [hit] at hst2
                    rw [Option.some.injEq, Prod.mk.injEq] at hst2
                    obtain ⟨rfl, rfl⟩ := hst2
                    exact ⟨rfl, fun x hx => hx⟩
                  | some rr =>
                    cases rr with
                    | boolSchema b =>
                      simp only [hit] at hst2
                      rw [Option.some.injEq, Prod.mk.injEq] at hst2
                      obtain ⟨rfl, rfl⟩ := hst2
                      exact ⟨rfl, fun x hx => hx⟩
                    | node j =>
                      simp only [hit] at hst2
                      obtain ⟨w2, hc2, _, _⟩ := go_spec fuel _ _ _ _ hst2
                      exact ⟨hc2.len_eq, hc2.sub_visits⟩
                have hunv2 : unvisited g2 v2 < fuel := by
                  have hm := unvisited_mono (g := g2) hstate2.2
                  rw [unvisited_congr hstate2.1 v2, unvisited_congr hstate2.1 v1,
                      unvisited_congr hstate1.1 v2, unvisited_congr hstate1.1 v1] at hm
                  rw [unvisited_congr hstate2.1 v2, unvisited_congr hstate1.1 v2]
                  have hm2 := unvisited_mono (g := g) hstate1.2
                  omega
                split
                · next hst3 =>
                  exfalso
                  cases hpp : (readNode g2 id).properties with
                  | none =>
                    simp only [hpp] at hst3
                    cases hst3
                  | some props =>
                    simp only [hpp] at hst3
                    have hs := ihlist g2 v2 (props.map Prod.snd) hunv2
                    rw [hst3] at hs
                    simp at hs
                · next g3 v3 hst3 =>
                  split
                  · split
                    · simp
                    · simp
                  · simp
    refine ⟨hgo, ?_⟩
    intro g v l hf
    induction l generalizing g v with
    | nil => simp [sanitizeList]
    | cons item rest ih =>
      cases item with
      | boolSchema b =>
        simp only [sanitizeList]
        exact ih _ _ hf
      | node j =>
        simp only [sanitizeList]
        have hs := hgo g v (some j) hf
        rw [Option.isSome_iff_exists] at hs
        obtain ⟨out1, hout1⟩ := hs
        rw [hout1]
        obtain ⟨g', v'⟩ := out1
        obtain ⟨w, hc, _, _⟩ := go_spec (fuel + 1) _ _ _ _ hout1
        apply ih
        have hm := unvisited_mono (g := g') hc.sub_visits
        rw [unvisited_congr hc.len_eq v', unvisited_congr hc.len_eq v] at hm
        rw [unvisited_congr hc.len_eq v']
        omega

/-- Every node reachable from the root (avoiding the initial visited set) ends
up in the final visited set: nothing reachable is skipped. -/
theorem reaches_mem_visited {fuel : Nat} {g : Graph} {v : List Nat} {rid : Nat}
    {out : Graph × List Nat} (hrun : sanitizeGo fuel g v (some rid) = some out) :
    ∀ i, Reaches g v rid i → i ∈ out.2 := by
  obtain ⟨w, hcore, hroot, _⟩ := go_spec fuel g v (some rid) out hrun
  intro i hre
  obtain ⟨⟨hr1, hr2⟩, hpath⟩ := hre
  have key : ∀ x, Relation.ReflTransGen (stepEdge g v) rid x →
      x ∈ out.2 ∧ x ∉ v ∧ x < g.length := by
    intro x hx
    induction hx with
    | refl => exact ⟨hroot rid rfl hr1, hr2, hr1⟩
    | @tail b c hp hs ih =>
      obtain ⟨hmem, hnv, hlt⟩ := ih
      obtain ⟨hchild, hltc, hnc⟩ := hs
      have hbw : b ∈ w := by
        rw [hcore.visits] at hmem
        rcases List.mem_append.mp hmem with h1 | h2
        · exact h1
        · exact absurd h2 hnv
      exact ⟨hcore.closure b hbw c hchild hltc, hnc, hltc⟩
  exact (key i hpath).1

/-- A node processed by a run ends up `localSanitize`d. -/
theorem run_sanit {g : Graph} {v : List Nat} {r : Option Nat} {g' : Graph} {v' : List Nat}
    (h : sanitizeParametersForGemini g r v = some (g', v'))
    {i : Nat} (hi : i ∈ v') (hnv : i ∉ v) : g'[i]? = (g[i]?).map localSanitize := by
  obtain ⟨w, hcore0, _, _⟩ := go_spec _ _ _ _ _ h
  have hcore : RunCore g v g' v' w := hcore0
  apply hcore.sanit
  rw [hcore.visits] at hi
  rcases List.mem_append.mp hi with h1 | h2
  · exact h1
  · exact absurd h2 hnv

/-- A node not processed by a run is untouched. -/
theorem run_unchanged {g : Graph} {v : List Nat} {r : Option Nat} {g' : Graph} {v' : List Nat}
    (h : sanitizeParametersForGemini g r v = some (g', v'))
    {i : Nat} (hi : i ∉ v' ∨ i ∈ v) : g'[i]? = g[i]? := by
  obtain ⟨w, hcore0, _, _⟩ := go_spec _ _ _ _ _ h
  have hcore : RunCore g v g' v' w := hcore0
  apply hcore.frame
  intro hiw
  rcases hi with h1 | h2
  · exact h1 (hcore.mem_visits_of_w i hiw)
  · exact (hcore.fresh i hiw).2 h2

/-- A run from an empty visited set visits exactly the reachable nodes. -/
theorem run_visits_iff {g : Graph} {rid : Nat} {g' : Graph} {v' : List Nat}
    (h : sanitizeParametersForGemini g (some rid) = some (g', v')) :
    ∀ i, i ∈ v' ↔ Reaches g [] rid i := by
  intro i
  constructor
  · intro hi
    obtain ⟨w, hcore0, _, hsound⟩ := go_spec _ _ _ _ _ h
    have hcore : RunCore g [] g' v' w := hcore0
    rw [hcore.visits, List.append_nil] at hi
    obtain ⟨rid', hr, hre⟩ := hsound i hi
    have : rid = rid' := by injection hr
    exact this ▸ hre
  · exact fun hre => reaches_mem_visited h i hre

/-- A call on an absent root does nothing. -/
theorem sanitize_none_eq (g : Graph) (v : List Nat) :
    sanitizeParametersForGemini g none v = some (g, v) := by
  simp [sanitizeParametersForGemini, sanitizeGo]

theorem nodePermB_fields {a b : SchemaNode} (h : nodePermB a b = true) :
    a.type = b.type ∧ a.format = b.format ∧ a.default = b.default ∧ a.enum = b.enum ∧
    a.anyOf = b.anyOf ∧ a.items = b.items ∧ propsPermB a.properties b.properties = true := by
  simp only [nodePermB, Bool.and_eq_true, beq_iff_eq] at h
  obtain ⟨⟨⟨⟨⟨⟨h1, h2⟩, h3⟩, h4⟩, h5⟩, h6⟩, h7⟩ := h
  exact ⟨h1, h2, h3, h4, h5, h6, h7⟩

theorem propsPerm_getD {p q : Option (List (String × SchemaRef))}
    (h : propsPermB p q = true) : (p.getD []).Perm (q.getD []) := by
  cases p with
  | none =>
    cases q with
    | none => exact List.Perm.refl _
    | some q' => simp [propsPermB] at h
  | some p' =>
    cases q with
    | none => simp [propsPermB] at h
    | some q' =>
      simp only [propsPermB] at h
      simpa using of_decide_eq_true h

theorem childIds_mem_iff_of_nodePermB {a b : SchemaNode} (h : nodePermB a b = true)
    (j : Nat) : j ∈ childIdsOf a ↔ j ∈ childIdsOf b := by
  obtain ⟨hty, hf, hd, he, hao, hit, hpp⟩ := nodePermB_fields h
  have hperm := propsPerm_getD hpp
  unfold childIdsOf
  rw [hao, hit]
  exact List.Perm.mem_iff
    (List.Perm.filterMap _ (List.Perm.append_left _ (hperm.map Prod.snd)))

theorem graphChildIds_mem_iff_of_PropPerm {g₁ g₂ : Graph} (h : PropPerm g₁ g₂)
    (k j : Nat) : j ∈ graphChildIds g₁ k ↔ j ∈ graphChildIds g₂ k := by
  by_cases hk : k < g₁.length
  · exact childIds_mem_iff_of_nodePermB (h.2 k hk) j
  · unfold graphChildIds readNode
    rw [List.getElem?_eq_none (Nat.le_of_not_lt hk),
        List.getElem?_eq_none (by rw [← h.1]; exact Nat.le_of_not_lt hk)]

theorem nodePermB_localSanitize {a b : SchemaNode} (h : nodePermB a b = true) :
    nodePermB (localSanitize a) (localSanitize b) = true := by
  obtain ⟨hty, hf, hd, he, hao, hit, hpp⟩ := nodePermB_fields h
  have hcf : clearsFormat (preSan a) = clearsFormat (preSan b) := by
    rw [clearsFormat_preSan, clearsFormat_preSan]
    simp [clearsFormat, hty, hf]
  simp only [nodePermB, Bool.and_eq_true, beq_iff_eq]
  refine ⟨⟨⟨⟨⟨⟨?_, ?_⟩, ?_⟩, ?_⟩, ?_⟩, ?_⟩, ?_⟩
  · rw [localSanitize_type, localSanitize_type, hty]
  · rw [localSanitize_format, localSanitize_format, hcf, hf]
  · rw [localSanitize_default, localSanitize_default, hao, hd]
  · rw [localSanitize_enum, localSanitize_enum, he]
  · rw [localSanitize_anyOf, localSanitize_anyOf, hao]
  · rw [localSanitize_items, localSanitize_items, hit]
  · rw [localSanitize_properties, localSanitize_properties]
    exact hpp

/-! ### The claims -/

/-- C1: For every node processed by `sanitizeParametersForGemini` whose declared
kind is STRING, the resulting `format` is cleared (set to absent) exactly when
the original `format` was present, non-empty, and different from both `"enum"`
and `"date-time"`; an absent, empty, `"enum"`, or `"date-time"` format is left
unchanged. -/
theorem string_format_rule (g g' : Graph) (r : Option Nat) (v v' : List Nat)
    (i : Nat) (n : SchemaNode)
    (hrun : sanitizeParametersForGemini g r v = some (g', v'))
    (hproc : i ∈ v') (hfresh : i ∉ v)
    (hn : g[i]? = some n) (hty : n.type = some GenaiType.STRING) :
    (readNode g' i).format =
      if formatTruthy n.format && n.format != some "enum" && n.format != some "date-time"
      then none else n.format := by
  have hs := run_sanit hrun hproc hfresh
  rw [hn] at hs
  unfold readNode
  rw [hs]
  simp only [Option.map_some', Option.getD_some]
  rw [localSanitize_format, clearsFormat_preSan]
  simp [clearsFormat, hty]

theorem string_format_rule_witness :
    (readNode G1res 2).format =
      (if formatTruthy nodeUuid.format && nodeUuid.format != some "enum" &&
          nodeUuid.format != some "date-time" then none else nodeUuid.format) :=
  string_format_rule G1 G1res (some 0) [] [2, 1, 0] 2 nodeUuid rfl (by decide)
    (by decide) rfl rfl

/-- C2: For every node processed by `sanitizeParametersForGemini` that declares
an `anyOf` list (of any contents, even empty), the resulting `default` is
absent, regardless of whether `default` was set before the call. -/
theorem anyOf_clears_default (g g' : Graph) (r : Option Nat) (v v' : List Nat)
    (i : Nat) (n : SchemaNode)
    (hrun : sanitizeParametersForGemini g r v = some (g', v'))
    (hproc : i ∈ v') (hfresh : i ∉ v)
    (hn : g[i]? = some n) (ha : n.anyOf.isSome = true) :
    (readNode g' i).default = none := by
  have hs := run_sanit hrun hproc hfresh
  rw [hn] at hs
  unfold readNode
  rw [hs]
  simp [localSanitize_default, ha]

theorem anyOf_clears_default_witness : (readNode GanyRes 0).default = none :=
  anyOf_clears_default Gany GanyRes (some 0) [] [1, 0] 0
    { anyOf := some [SchemaRef.node 1, SchemaRef.boolSchema true], default := some "x" }
    rfl (by decide) (by decide) rfl rfl

/-- C3: A top-level call of `sanitizeParametersForGemini` on any graph of
schema nodes, including cyclic and diamond-shaped ones, terminates: the
fuel-indexed recursion succeeds at every fuel beyond the number of nodes, with
one fixed result; the visited list is duplicate-free (each distinct node is
processed exactly once), and it holds exactly the nodes reachable from the
root. -/
theorem sanitize_terminates_visits_each_once (g : Graph) (rid : Nat) :
    ∃ out : Graph × List Nat,
      sanitizeParametersForGemini g (some rid) = some out ∧
      (∀ fuel, g.length < fuel → sanitizeGo fuel g [] (some rid) = some out) ∧
      out.2.Nodup ∧
      (∀ i, i ∈ out.2 ↔ Reaches g [] rid i) := by
  have hs := (adequate (g.length + 1)).1 g [] (some rid)
    (by have := unvisited_le g ([] : List Nat); omega)
  rw [Option.isSome_iff_exists] at hs
  obtain ⟨out, hout⟩ := hs
  obtain ⟨g', v'⟩ := out
  refine ⟨(g', v'), hout, ?_, ?_, ?_⟩
  · intro fuel hf
    exact sanitizeGo_mono (by omega) hout
  · obtain ⟨w, hcore0, _, _⟩ := go_spec _ _ _ _ _ hout
    have hcore : RunCore g [] g' v' w := hcore0
    rw [hcore.visits]
    simpa using hcore.nodup
  · exact run_visits_iff hout

theorem sanitize_terminates_visits_each_once_witness :
    ∃ out : Graph × List Nat,
      sanitizeParametersForGemini Gcyc (some 0) = some out ∧
      (∀ fuel, Gcyc.length < fuel → sanitizeGo fuel Gcyc [] (some 0) = some out) ∧
      out.2.Nodup ∧
      (∀ i, i ∈ out.2 ↔ Reaches Gcyc [] 0 i) :=
  sanitize_terminates_visits_each_once Gcyc 0

/-- C4: The sanitizer recurses into exactly the non-boolean schema children
reachable from the root: every valid child of every visited node is itself
visited; everything visited is reachable from the root; and the `anyOf`,
`items`, and `properties` slots of every node (including their literal-boolean
entries) are left unmodified. -/
theorem recursion_targets (g g' : Graph) (rid : Nat) (v' : List Nat)
    (hrun : sanitizeParametersForGemini g (some rid) = some (g', v')) :
    (∀ i ∈ v', ∀ j ∈ graphChildIds g i, j < g.length → j ∈ v') ∧
    (∀ i ∈ v', Reaches g [] rid i) ∧
    (∀ i, (readNode g' i).anyOf = (readNode g i).anyOf ∧
      (readNode g' i).items = (readNode g i).items ∧
      (readNode g' i).properties = (readNode g i).properties) := by
  obtain ⟨w, hcore0, hroot, hsound⟩ := go_spec _ _ _ _ _ hrun
  have hcore : RunCore g [] g' v' w := hcore0
  have hw : ∀ i, i ∈ v' ↔ i ∈ w := by
    intro i
    rw [hcore.visits]
    simp
  refine ⟨?_, ?_, ?_⟩
  · intro i hi j hj hjl
    exact hcore.closure i ((hw i).mp hi) j hj hjl
  · intro i hi
    obtain ⟨rid', hr, hre⟩ := hsound i ((hw i).mp hi)
    have he : rid = rid' := by injection hr
    exact he ▸ hre
  · intro i
    by_cases hiw : i ∈ w
    · have hs := hcore.sanit i hiw
      unfold readNode
      rw [hs]
      cases g[i]? with
      | none => exact ⟨rfl, rfl, rfl⟩
      | some n =>
        simp [localSanitize_anyOf, localSanitize_items, localSanitize_properties]
    · unfold readNode
      rw [hcore.frame i hiw]
      exact ⟨rfl, rfl, rfl⟩

theorem recursion_targets_witness : (2 : Nat) ∈ ([2, 1, 0] : List Nat) ∧
    (readNode G1res 0).properties = (readNode G1 0).properties :=
  ⟨(recursion_targets G1 G1res 0 [2, 1, 0] rfl).1 0 (by decide) 2 (by decide) (by decide),
   ((recursion_targets G1 G1res 0 [2, 1, 0] rfl).2.2 0).2.2⟩

/-- C5: Sanitizing is idempotent: running the sanitizer a second time on the
heap produced by a first run (same root, fresh visited set) leaves every node
exactly as the first run left it, including on cyclic graphs. -/
theorem sanitize_idempotent (g g₁ g₂ : Graph) (r : Option Nat) (v₁ v₂ : List Nat)
    (h1 : sanitizeParametersForGemini g r = some (g₁, v₁))
    (h2 : sanitizeParametersForGemini g₁ r = some (g₂, v₂)) :
    g₂ = g₁ := by
  cases r with
  | none =>
    rw [sanitize_none_eq] at h2
    rw [Option.some.injEq, Prod.mk.injEq] at h2
    exact h2.1.symm
  | some rid =>
    obtain ⟨w1, hc10, _, _⟩ := go_spec _ _ _ _ _ h1
    have hc1 : RunCore g [] g₁ v₁ w1 := hc10
    apply List.ext_getElem?
    intro i
    by_cases hi2 : i ∈ v₂
    · have hre2 : Reaches g₁ [] rid i := (run_visits_iff h2 i).mp hi2
      have hre1 : Reaches g [] rid i :=
        reaches_transfer hc1.len_eq (fun a b hb => (hc1.childIds_eq a) ▸ hb) hre2
      have hi1 : i ∈ v₁ := (run_visits_iff h1 i).mpr hre1
      have hs1 := run_sanit h1 hi1 (List.not_mem_nil i)
      have hs2 := run_sanit h2 hi2 (List.not_mem_nil i)
      rw [hs2, hs1]
      cases g[i]? with
      | none => rfl
      | some n => simp [localSanitize_idem]
    · exact run_unchanged h2 (Or.inl hi2)

theorem sanitize_idempotent_witness : G1res = G1res :=
  sanitize_idempotent G1 G1res G1res (some 0) [2, 1, 0] [2, 1, 0] rfl rfl

/-- C6: The sanitizer has no error conditions: an absent root is a no-op, an
empty schema object is returned untouched, and for every graph, root and
visited set the call completes with a result. -/
theorem no_error_conditions (g : Graph) :
    sanitizeParametersForGemini g none = some (g, []) ∧
    (∀ rid, g[rid]? = some {} → sanitizeParametersForGemini g (some rid) = some (g, [rid])) ∧
    (∀ r v, (sanitizeParametersForGemini g r v).isSome) := by
  refine ⟨sanitize_none_eq g [], ?_, ?_⟩
  · intro rid hn
    rw [sanitizeParametersForGemini, sanitizeGo_succ_eq]
    rw [if_neg (List.not_mem_nil rid)]
    simp [hn, readNode_of_getElem? _ _ _ hn]
  · intro r v
    exact (adequate (g.length + 1)).1 g v r (by have := unvisited_le g v; omega)

theorem no_error_conditions_witness :
    sanitizeParametersForGemini Gempty none = some (Gempty, []) ∧
    sanitizeParametersForGemini Gempty (some 0) = some (Gempty, [0]) ∧
    (sanitizeParametersForGemini Gempty (some 0) [5]).isSome :=
  ⟨(no_error_conditions Gempty).1, (no_error_conditions Gempty).2.1 0 rfl,
   (no_error_conditions Gempty).2.2 (some 0) [5]⟩

/-- C7: The sanitizer modifies only the `default` and `format` fields of
nodes: every node's `type`, `enum`, `anyOf`, `items` and `properties` are
unchanged, and no node is created or destroyed (the heap keeps its length, so
the shape of the node graph is preserved). -/
theorem frame_only_default_and_format (g g' : Graph) (r : Option Nat)
    (v v' : List Nat)
    (hrun : sanitizeParametersForGemini g r v = some (g', v')) :
    g'.length = g.length ∧
    ∀ i, (readNode g' i).type = (readNode g i).type ∧
      (readNode g' i).enum = (readNode g i).enum ∧
      (readNode g' i).anyOf = (readNode g i).anyOf ∧
      (readNode g' i).items = (readNode g i).items ∧
      (readNode g' i).properties = (readNode g i).properties := by
  obtain ⟨w, hc0, _, _⟩ := go_spec _ _ _ _ _ hrun
  have hc : RunCore g v g' v' w := hc0
  refine ⟨hc.len_eq, ?_⟩
  intro i
  by_cases hiw : i ∈ w
  · have hs := hc.sanit i hiw
    unfold readNode
    rw [hs]
    cases g[i]? with
    | none => exact ⟨rfl, rfl, rfl, rfl, rfl⟩
    | some n =>
      simp [localSanitize_type, localSanitize_enum, localSanitize_anyOf,
        localSanitize_items, localSanitize_properties]
  · unfold readNode
    rw [hc.frame i hiw]
    exact ⟨rfl, rfl, rfl, rfl, rfl⟩

theorem frame_only_default_and_format_witness : GcycRes.length = Gcyc.length ∧
    (readNode GcycRes 0).properties = (readNode Gcyc 0).properties :=
  ⟨(frame_only_default_and_format Gcyc GcycRes (some 0) [] [1, 0] rfl).1,
   ((frame_only_default_and_format Gcyc GcycRes (some 0) [] [1, 0] rfl).2 0).2.2.2.2⟩

/-- C8: The final state of the tree does not depend on the iteration order of
any node's `properties` map: two runs on heaps that differ only by the order
of each node's `properties` bindings visit the same node ids and produce heaps
again equal up to that same reordering. -/
theorem properties_order_irrelevant (g₁ g₂ g₁' g₂' : Graph) (r : Option Nat)
    (v₁' v₂' : List Nat) (hperm : PropPerm g₁ g₂)
    (h1 : sanitizeParametersForGemini g₁ r = some (g₁', v₁'))
    (h2 : sanitizeParametersForGemini g₂ r = some (g₂', v₂')) :
    PropPerm g₁' g₂' ∧ (∀ i, i ∈ v₁' ↔ i ∈ v₂') := by
  obtain ⟨hlen, hnodes⟩ := hperm
  obtain ⟨w₁, hc10, _, _⟩ := go_spec _ _ _ _ _ h1
  have hc1 : RunCore g₁ [] g₁' v₁' w₁ := hc10
  obtain ⟨w₂, hc20, _, _⟩ := go_spec _ _ _ _ _ h2
  have hc2 : RunCore g₂ [] g₂' v₂' w₂ := hc20
  have hvis : ∀ i, i ∈ v₁' ↔ i ∈ v₂' := by
    cases r with
    | none =>
      rw [sanitize_none_eq] at h1 h2
      rw [Option.some.injEq, Prod.mk.injEq] at h1 h2
      rw [← h1.2, ← h2.2]
      intro i
      exact Iff.rfl
    | some rid =>
      intro i
      rw [run_visits_iff h1 i, run_visits_iff h2 i]
      constructor
      · exact fun hre => reaches_transfer hlen
          (fun a b hb => (graphChildIds_mem_iff_of_PropPerm ⟨hlen, hnodes⟩ a b).mp hb) hre
      · exact fun hre => reaches_transfer hlen.symm
          (fun a b hb => (graphChildIds_mem_iff_of_PropPerm ⟨hlen, hnodes⟩ a b).mpr hb) hre
  refine ⟨⟨?_, ?_⟩, hvis⟩
  · rw [hc1.len_eq, hc2.len_eq, hlen]
  · intro i hi
    have hi1 : i < g₁.length := by
      rw [← hc1.len_eq]
      exact hi
    have hnb := hnodes i hi1
    by_cases hiv : i ∈ v₁'
    · have hs₁ := run_sanit h1 hiv (List.not_mem_nil i)
      have hs₂ := run_sanit h2 ((hvis i).mp hiv) (List.not_mem_nil i)
      unfold readNode
      rw [hs₁, hs₂]
      cases ha : g₁[i]? with
      | none =>
        have := List.getElem?_eq_none_iff.mp ha
        omega
      | some a =>
        cases hb : g₂[i]? with
        | none =>
          have h2n := List.getElem?_eq_none_iff.mp hb
          rw [← hlen] at h2n
          omega
        | some b =>
          rw [readNode_of_getElem? _ _ _ ha, readNode_of_getElem? _ _ _ hb] at hnb
          simp only [Option.map_some', Option.getD_some]
          exact nodePermB_localSanitize hnb
    · have hu₁ := run_unchanged h1 (Or.inl hiv)
      have hu₂ := run_unchanged h2 (Or.inl (fun hx => hiv ((hvis i).mpr hx)))
      unfold readNode
      rw [hu₁, hu₂]
      exact hnb

theorem properties_order_irrelevant_witness :
    PropPerm G1res G1permRes ∧
    (∀ i, i ∈ ([2, 1, 0] : List Nat) ↔ i ∈ ([1, 2, 0] : List Nat)) :=
  properties_order_irrelevant G1 G1perm G1res G1permRes (some 0) [2, 1, 0] [1, 2, 0]
    (by decide) rfl rfl

/-- C9: A root already contained in the supplied visited set makes the call
return immediately with nothing modified; more generally any node unreachable
from the root without passing through the visited set keeps its exact original
state. -/
theorem visited_root_skipped (g : Graph) (v : List Nat) (rid : Nat) :
    (rid ∈ v → sanitizeParametersForGemini g (some rid) v = some (g, v)) ∧
    (∀ g' v', sanitizeParametersForGemini g (some rid) v = some (g', v') →
      ∀ k, ¬ Reaches g v rid k → g'[k]? = g[k]?) := by
  constructor
  · intro hmem
    rw [sanitizeParametersForGemini, sanitizeGo_succ_eq, if_pos hmem]
  · intro g' v' hrun k hnr
    obtain ⟨w, hcore0, _, hsound⟩ := go_spec _ _ _ _ _ hrun
    have hcore : RunCore g v g' v' w := hcore0
    apply hcore.frame
    intro hkw
    obtain ⟨rid', hr, hre⟩ := hsound k hkw
    have he : rid = rid' := by injection hr
    exact hnr (he ▸ hre)

theorem visited_root_skipped_witness :
    sanitizeParametersForGemini G1 (some 0) [0] = some (G1, [0]) ∧ G1[2]? = G1[2]? :=
  ⟨(visited_root_skipped G1 [0] 0).1 (by decide),
   (visited_root_skipped G1 [0] 0).2 G1 [0] ((visited_root_skipped G1 [0] 0).1 (by decide))
     2 (fun h => (h.1.2 (by decide)).elim)⟩

/-- C10: A node whose kind is not STRING never has its `format` modified, even
when that `format` is a value outside the supported set (for example a NUMBER
node keeps `format = "uuid"`). -/
theorem non_string_format_preserved (g g' : Graph) (r : Option Nat)
    (v v' : List Nat)
    (hrun : sanitizeParametersForGemini g r v = some (g', v')) (i : Nat)
    (hty : (readNode g i).type ≠ some GenaiType.STRING) :
    (readNode g' i).format = (readNode g i).format := by
  obtain ⟨w, hc0, _, _⟩ := go_spec _ _ _ _ _ hrun
  have hc : RunCore g v g' v' w := hc0
  by_cases hiw : i ∈ w
  · have hs := hc.sanit i hiw
    unfold readNode
    rw [hs]
    cases hg : g[i]? with
    | none => rfl
    | some n =>
      rw [readNode, hg] at hty
      simp only [Option.getD_some] at hty
      simp only [Option.map_some', Option.getD_some]
      rw [localSanitize_format, clearsFormat_preSan]
      have hcf : clearsFormat n = false := by
        unfold clearsFormat
        rw [beq_eq_false_iff_ne.mpr hty]
        simp
      rw [hcf]
      simp
  · unfold readNode
    rw [hc.frame i hiw]

theorem non_string_format_preserved_witness :
    (readNode GmixRes 0).format = (readNode Gmix 0).format :=
  non_string_format_preserved Gmix GmixRes (some 0) [] [1, 0] rfl 0 (by decide)
